import Mathlib

/-!
Verification of the skill repository module of `pg-aiguide`:
path validation, skill-name normalization, skill loading with duplicate
handling and content caching, and content resolution.

The definitions below are shallow embeddings of the TypeScript source
(`skills/index.ts`): strings are modeled as `String`/`List Char`, the
Node.js `Map` as an insertion-ordered association list, the filesystem
as finite lookup tables, and thrown exceptions as explicit error values.
-/

deriving instance DecidableEq for Except

namespace PgAiguide

/-! ## JavaScript character classes

`isJsSpace` models the character set matched by the regex class `\s` and by
`String.prototype.trim` in JavaScript (ECMA-262 WhiteSpace + LineTerminator).
-/

def isJsSpace (c : Char) : Bool :=
  decide (c.toNat = 9 ∨ c.toNat = 10 ∨ c.toNat = 11 ∨ c.toNat = 12 ∨ c.toNat = 13 ∨
    c.toNat = 32 ∨ c.toNat = 160 ∨ c.toNat = 5760 ∨ (8192 ≤ c.toNat ∧ c.toNat ≤ 8202) ∨
    c.toNat = 8232 ∨ c.toNat = 8233 ∨ c.toNat = 8239 ∨ c.toNat = 8287 ∨
    c.toNat = 12288 ∨ c.toNat = 65279)

/-- Character class `[a-zA-Z0-9-_]` of the skill-name pattern `^[a-zA-Z0-9-_]+$`. -/
def isNameAllowedChar (c : Char) : Bool :=
  decide ((97 ≤ c.toNat ∧ c.toNat ≤ 122) ∨ (65 ≤ c.toNat ∧ c.toNat ≤ 90) ∨
    (48 ≤ c.toNat ∧ c.toNat ≤ 57) ∨ c.toNat = 45 ∨ c.toNat = 95)

/-- Character class `[a-z0-9-_]` used by the normalization replace step. -/
def isLowerAllowed (c : Char) : Bool :=
  decide ((97 ≤ c.toNat ∧ c.toNat ≤ 122) ∨ (48 ≤ c.toNat ∧ c.toNat ≤ 57) ∨
    c.toNat = 45 ∨ c.toNat = 95)

/-- ASCII letters and digits. -/
def isAsciiAlnum (c : Char) : Bool :=
  decide ((97 ≤ c.toNat ∧ c.toNat ≤ 122) ∨ (65 ≤ c.toNat ∧ c.toNat ≤ 90) ∨
    (48 ≤ c.toNat ∧ c.toNat ≤ 57))

/-- Lowercase ASCII letters and digits. -/
def isLowerAlnum (c : Char) : Bool :=
  decide ((97 ≤ c.toNat ∧ c.toNat ≤ 122) ∨ (48 ≤ c.toNat ∧ c.toNat ≤ 57))

/-- The character class `[-_]` (dash or underscore). -/
def isDU (c : Char) : Bool :=
  decide (c.toNat = 45 ∨ c.toNat = 95)

/-! ## Generic string helpers (JavaScript semantics) -/

/-- JavaScript `str.split(sep)` for a single-character separator,
on the character-list representation. `"".split` gives `[""]`,
`"a/".split('/')` gives `["a", ""]`. -/
def splitOnChar (sep : Char) : List Char → List (List Char)
  | [] => [[]]
  | c :: rest =>
    match splitOnChar sep rest with
    | [] => [[]]
    | s :: ss => if c = sep then [] :: s :: ss else (c :: s) :: ss

/-- Join character-list segments with `/` (inverse of `splitOnChar '/'`). -/
def joinWithSlash : List (List Char) → List Char
  | [] => []
  | [s] => s
  | s :: t :: rest => s ++ '/' :: joinWithSlash (t :: rest)

/-- Whether the character list contains two consecutive dots, i.e. the
substring test `normalized.includes('..')` from the source. -/
def containsDotDot : List Char → Bool
  | '.' :: '.' :: _ => true
  | _ :: rest => containsDotDot rest
  | [] => false

/-- JavaScript `String.prototype.trim`. -/
def jsTrim (s : String) : String :=
  String.mk (((s.toList.dropWhile isJsSpace).reverse.dropWhile isJsSpace).reverse)

/-! ## `node:path` posix `normalize` -/

/-- One step of Node.js `normalizeString`: fold a path segment into the
accumulated resolved segments. `allowAboveRoot` is true for relative paths,
in which case unmatched `..` segments are retained. -/
def normSegAccum (allowAboveRoot : Bool) (acc : List (List Char)) (seg : List Char) :
    List (List Char) :=
  if seg = [] ∨ seg = ['.'] then acc
  else if seg = ['.', '.'] then
    match acc.getLast? with
    | some last => if last = ['.', '.'] then (if allowAboveRoot then acc ++ [seg] else acc)
                   else acc.dropLast
    | none => if allowAboveRoot then [seg] else acc
  else acc ++ [seg]

/-- Node.js `path.posix.normalize`: resolves `.` and `..` segments, collapses
duplicate separators, preserves a trailing separator, returns `"."` for an
empty result on a relative path. -/
def posixNormalize (p : String) : String :=
  if p = "" then "."
  else
    let cs := p.toList
    let isAbs : Bool := cs.head? == some '/'
    let hasTrail : Bool := cs.getLast? == some '/'
    let resolved := (splitOnChar '/' cs).foldl (normSegAccum !isAbs) []
    let body := joinWithSlash resolved
    if body = [] then
      if isAbs then "/" else if hasTrail then "./" else "."
    else
      String.mk ((if isAbs then ['/'] else []) ++ body ++ (if hasTrail then ['/'] else []))

/-- Node.js `path.posix.join` of two components (join then normalize;
empty components are ignored, all-empty input yields `"."`). -/
def pathJoin (a b : String) : String :=
  if a = "" ∧ b = "" then "."
  else if a = "" then posixNormalize b
  else if b = "" then posixNormalize a
  else posixNormalize (a ++ "/" ++ b)

/-! ## Constants from the source -/

def ALLOWED_SKILL_SUBDIRS : List String := ["scripts", "references", "assets"]

def SKILL_MAIN_FILE : String := "SKILL.md"

/-- The skills root directory. The source computes an absolute path from the
module location (`join(__dirname, '..', '..', 'skills')`); the embedding uses
a fixed symbolic root, which no claim depends on. -/
def skillsDir : String := "skills"

/-! ## Path validator (`validateSkillPath`) -/

inductive PathCheck where
  | valid : PathCheck
  | invalid : String → PathCheck
deriving DecidableEq, Repr

/-- Rejection reason listing the accepted path shapes, as built by the source
via a template literal. -/
def invalidShapeMsg : String :=
  "Path must be " ++ SKILL_MAIN_FILE ++ " or within: " ++
    String.intercalate ", " ALLOWED_SKILL_SUBDIRS

/-- `validateSkillPath` from the source: normalize, reject raw absolute or
drive-qualified paths, reject if the normalized form contains the substring
`..`, accept the main file, accept `<whitelisted-subdir>/<file>`. -/
def validateSkillPath (requestedPath : String) : PathCheck :=
  let normalized := posixNormalize requestedPath
  if requestedPath.toList.head? == some '/' || requestedPath.toList.contains ':' then
    .invalid "Absolute paths not allowed"
  else if containsDotDot normalized.toList then
    .invalid "Path traversal not allowed"
  else if normalized = SKILL_MAIN_FILE then
    .valid
  else
    match splitOnChar '/' normalized.toList with
    | [subdir, _] =>
      if ALLOWED_SKILL_SUBDIRS.contains (String.mk subdir) then .valid
      else .invalid invalidShapeMsg
    | _ => .invalid invalidShapeMsg

/-! ## Skill-name normalization (`parseSkillFile`, lines 54-66)

The source tests the manifest name against `^[a-zA-Z0-9-_]+$` and, on failure,
derives a normalized name by chained global regex replaces: lower-case, then
`\s+` to `'-'`, then `[^a-z0-9-_]` to `'_'`, then `dash[-_]+` to `'-'`, then
`_[_-]+` to `'_'`, then trim leading and trailing `[-_]+` runs.
-/

/-- JavaScript `String.prototype.toLowerCase`, per character, restricted to
the ASCII range (the only range whose image can intersect `[a-z0-9-_]`, so
the restriction does not affect any later step of the pipeline). -/
def jsToLower (c : Char) : Char :=
  if 65 ≤ c.toNat ∧ c.toNat ≤ 90 then Char.ofNat (c.toNat + 32) else c

/-- Whether the next character exists and is JavaScript whitespace. -/
def wsLookahead : List Char → Bool
  | [] => false
  | c :: _ => isJsSpace c

/-- Global replace of `/\s+/` by `'-'`: each maximal whitespace run becomes a
single dash (emitted at the end of the run). -/
def collapseWsRuns : List Char → List Char
  | [] => []
  | c :: rest =>
    if isJsSpace c then
      (if wsLookahead rest then collapseWsRuns rest else '-' :: collapseWsRuns rest)
    else c :: collapseWsRuns rest

/-- Global replace of `/[^a-z0-9-_]/` by `'_'`. -/
def replaceDisallowed (l : List Char) : List Char :=
  l.map (fun c => if isLowerAllowed c then c else '_')

/-- Whether the next character exists and is a dash or underscore. -/
def duLookahead : List Char → Bool
  | [] => false
  | c :: _ => isDU c

/-- Scanner implementing the global greedy replace of `lead[-_]+` by `lead`
(used with `lead = '-'` for the dash-led replace and `lead = '_'` for the
underscore-led replace).
In skipping mode (`true`) the scanner is inside a matched run and drops
dash/underscore characters. -/
def collapseGo (lead : Char) : Bool → List Char → List Char
  | _, [] => []
  | true, c :: rest =>
    if isDU c then collapseGo lead true rest else c :: collapseGo lead false rest
  | false, c :: rest =>
    if c = lead ∧ duLookahead rest = true then c :: collapseGo lead true rest
    else c :: collapseGo lead false rest

/-- Global greedy replace of a dash followed by `[-_]+` by `'-'`. -/
def step4 (l : List Char) : List Char := collapseGo '-' false l

/-- Global replace of `/_[_-]+/` by `'_'`. -/
def step5 (l : List Char) : List Char := collapseGo '_' false l

/-- Global replace of `/(^[-_]+)|([-_]+$)/` by the empty string: trims leading
and trailing dash/underscore runs. -/
def trimDashUnd (l : List Char) : List Char :=
  ((l.dropWhile isDU).reverse.dropWhile isDU).reverse

/-- The full normalized-name derivation from `parseSkillFile`. -/
def normalizeName (name : String) : String :=
  String.mk (trimDashUnd (step5 (step4 (replaceDisallowed
    (collapseWsRuns (name.toList.map jsToLower))))))

/-- The test `/^[a-zA-Z0-9-_]+$/.test(name)`. -/
def matchesNamePattern (name : String) : Bool :=
  !name.toList.isEmpty && name.toList.all isNameAllowedChar

/-- The complete name-registration step of `parseSkillFile`: keep the name if
it matches the pattern, otherwise replace it by its normalized form. -/
def registerSkillName (name : String) : String :=
  if matchesNamePattern name then name else normalizeName name

/-! ## Data model -/

structure SkillMatter where
  name : String
  description : String
  metadata : Option (List (String × String))
deriving DecidableEq, Repr

structure Skill where
  path : String
  name : String
  description : String
  metadata : Option (List (String × String))
  availableFiles : List String
deriving DecidableEq, Repr

/-- A directory entry as returned by `readdir(..., { withFileTypes: true })`. -/
structure DirEnt where
  name : String
  isFile : Bool
  isDirectory : Bool
deriving DecidableEq, Repr

/-- Lookup in an association list (JavaScript `Map.prototype.get`). -/
def lookupAssoc {α : Type} : List (String × α) → String → Option α
  | [], _ => none
  | (pk, pv) :: rest, k => if k == pk then some pv else lookupAssoc rest k

/-- The storage collaborator: a finite file tree. `files` maps a path to file
text, `dirs` maps a path to its entry listing. -/
structure FS where
  files : List (String × String)
  dirs : List (String × List DirEnt)
deriving DecidableEq, Repr

def fsReadFile (fs : FS) (p : String) : Option String := lookupAssoc fs.files p

def fsReaddir (fs : FS) (p : String) : Option (List DirEnt) := lookupAssoc fs.dirs p

/-- The module-level mutable state: the skill registry (`Map<string, Skill>`)
and the content cache (`Map<string, string>`), both modeled as
insertion-ordered association lists. -/
structure RepoState where
  skillMap : List (String × Skill)
  skillContentCache : List (String × String)
deriving DecidableEq, Repr

/-- Replace the value of every entry whose key is `k` (the in-place update
arm of `Map.prototype.set`; keys are unique in every map the source builds). -/
def updateAssoc {α : Type} (k : String) (v : α) : List (String × α) → List (String × α)
  | [] => []
  | (pk, pv) :: rest =>
    if pk == k then (k, v) :: updateAssoc k v rest
    else (pk, pv) :: updateAssoc k v rest

/-- JavaScript `Map.prototype.set`: update in place if the key is present,
otherwise append. -/
def setAssoc {α : Type} (l : List (String × α)) (k : String) (v : α) :
    List (String × α) :=
  if l.any (fun p => p.1 == k) then updateAssoc k v l
  else l ++ [(k, v)]

/-! ## Manifest parsing (`parseSkillFile`)

The front-matter split itself is performed by the external `gray-matter`
library, which is not part of this repository.
-/

/-- Front-matter data relevant to `zSkillMatter`: the `name` and
`description` fields (the optional open `metadata` mapping is not exercised
by any claim and is modeled as absent). -/
structure MatterData where
  name : Option String
  description : Option String
deriving DecidableEq, Repr

/-- Split a line at its first colon. -/
def splitAtColon : List Char → Option (List Char × List Char)
  | [] => none
  | c :: rest =>
    if c = ':' then some ([], rest)
    else
      match splitAtColon rest with
      | some (k, v) => some (c :: k, v)
      | none => none

/-- Record one `key: value` front-matter line. -/
def parseFmLine (d : MatterData) (line : List Char) : MatterData :=
  match splitAtColon line with
  | none => d
  | some (k, v) =>
    let vs := String.mk (v.dropWhile (fun c => c = ' '))
    if String.mk k = "name" then { d with name := some vs }
    else if String.mk k = "description" then { d with description := some vs }
    else d

/-- Split the lines after an opening `---` at the closing `---` line. -/
def splitAtCloseDelim : List (List Char) → Option (List (List Char) × List (List Char))
  | [] => none
  | l :: rest =>
    if l = ['-', '-', '-'] then some ([], rest)
    else
      match splitAtCloseDelim rest with
      | some (a, b) => some (l :: a, b)
      | none => none

/-- Join character-list segments with a separator character. -/
def joinWithChar (sep : Char) : List (List Char) → List Char
  | [] => []
  | [s] => s
  | s :: t :: rest => s ++ sep :: joinWithChar sep (t :: rest)

/-- Modelled from the spec: the external `gray-matter` dependency "splits
front-matter metadata from body content". A leading `---` line opens the
front-matter block, the next `---` line closes it, and each block line is
read as `key: value`; without a front-matter block the data is empty and the
whole text is the body. -/
def matterSplit (s : String) : MatterData × String :=
  match splitOnChar '\n' s.toList with
  | firstLine :: rest =>
    if firstLine = ['-', '-', '-'] then
      match splitAtCloseDelim rest with
      | some (fmLines, bodyLines) =>
        (fmLines.foldl parseFmLine ⟨none, none⟩,
         String.mk (joinWithChar '\n' bodyLines))
      | none => (⟨none, none⟩, s)
    else (⟨none, none⟩, s)
  | [] => (⟨none, none⟩, s)

/-- `zSkillMatter.parse`: `name` must be present and non-empty after trimming
(zod `z.string().trim().min(1)`), `description` must be present. -/
def zSkillMatterParse (d : MatterData) : Except String SkillMatter :=
  match d.name with
  | none => .error "invalid_type: name"
  | some n =>
    let trimmed := jsTrim n
    if trimmed = "" then .error "too_small: name"
    else
      match d.description with
      | none => .error "invalid_type: description"
      | some desc => .ok ⟨trimmed, desc, none⟩

/-- `parseSkillFile`: split the front matter, validate it, normalize the name
when it fails the pattern, and trim the body. Failures (thrown
`ZodError`) are modeled as `Except.error`. -/
def parseSkillFile (fileContent : String) : Except String (SkillMatter × String) :=
  let pair := matterSplit fileContent
  match zSkillMatterParse pair.1 with
  | .error e => .error e
  | .ok sm0 =>
    .ok ({ sm0 with name := registerSkillName sm0.name }, jsTrim pair.2)

/-! ## Directory scanner and skill loading -/

/-- `scanSkillDirectory`: the main file first, then the direct file entries of
each whitelisted subdirectory in fixed order; a missing subdirectory
contributes nothing. -/
def scanSkillDirectory (fs : FS) (skillPath : String) : List String :=
  ALLOWED_SKILL_SUBDIRS.foldl (fun acc subdir =>
    match fsReaddir fs (pathJoin skillPath subdir) with
    | none => acc
    | some entries =>
      acc ++ (entries.filter (fun e => e.isFile)).map (fun e => subdir ++ "/" ++ e.name))
    [SKILL_MAIN_FILE]

/-- `loadLocalPath` from `doLoadSkills`: read and parse `<path>/SKILL.md`,
skip on failure or duplicate name, otherwise register the skill and seed the
content cache with the parsed body under `<name>/SKILL.md`. -/
def loadLocalPath (fs : FS) (st : RepoState) (path : String) : RepoState :=
  match fsReadFile fs (pathJoin path SKILL_MAIN_FILE) with
  | none => st
  | some fileContent =>
    match parseSkillFile fileContent with
    | .error _ => st
    | .ok (sm, content) =>
      if (lookupAssoc st.skillMap sm.name).isSome then st
      else
        { skillMap := setAssoc st.skillMap sm.name
            { path := path, name := sm.name, description := sm.description,
              metadata := sm.metadata,
              availableFiles := scanSkillDirectory fs path },
          skillContentCache :=
            setAssoc st.skillContentCache (sm.name ++ "/" ++ SKILL_MAIN_FILE) content }

/-- `doLoadSkills`: clear the cache, enumerate the skills root, and load each
immediate subdirectory; a failed root enumeration is caught and yields the
empty state. -/
def doLoadSkills (fs : FS) : RepoState :=
  let st0 : RepoState := { skillMap := [], skillContentCache := [] }
  match fsReaddir fs skillsDir with
  | none => st0
  | some dirEntries =>
    dirEntries.foldl (fun st e =>
      if e.isDirectory then loadLocalPath fs st (pathJoin skillsDir e.name) else st) st0

/-- The promise-caching logic of `loadSkills`, with the asynchronous pass
flattened to its settled outcome: `cachedPromise` is the settled value of the
module-level `skillMapPromise` (`none` when the slot is `null`),
`passOutcome` is what `doLoadSkills()` would settle to (`Except.error` for a
rejection). Returns the value the call resolves to and the new promise slot:
a cached promise is returned untouched unless `force`; a failed pass is
caught, clears the slot and resolves to an empty map. -/
def loadSkillsResolve (cachedPromise : Option (List (String × Skill))) (force : Bool)
    (passOutcome : Except Unit (List (String × Skill))) :
    List (String × Skill) × Option (List (String × Skill)) :=
  match cachedPromise, force with
  | some m, false => (m, some m)
  | _, _ =>
    match passOutcome with
    | .ok m => (m, some m)
    | .error _ => ([], none)

/-! ## Content resolver (`viewSkillContent`) -/

inductive ViewResult where
  | ok : String → ViewResult
  | errSkillNotFound : String → ViewResult
  | errInvalidPath : String → String → ViewResult
  | errFileNotFound : String → String → ViewResult
  | errReadFailed : String → String → ViewResult
deriving DecidableEq, Repr

/-- The cache-miss tail of `viewSkillContent`: read from storage, populate the
cache on success. The `Nat` component counts storage read attempts. -/
def viewReadStorage (fs : FS) (st : RepoState) (skill : Skill)
    (name targetPath cacheKey : String) : ViewResult × RepoState × Nat :=
  match fsReadFile fs (pathJoin skill.path targetPath) with
  | some content =>
    (.ok content,
     { st with skillContentCache := setAssoc st.skillContentCache cacheKey content }, 1)
  | none => (.errReadFailed name targetPath, st, 1)

/-- `viewSkillContent`: look up the skill, validate the path, check the
declared file whitelist, then serve from the cache (`if (cached)` — a cached
empty string is falsy and falls through to storage) or read through. Returns
the result, the updated state, and the number of storage reads performed. -/
def viewSkillContent (fs : FS) (st : RepoState) (name targetPath : String) :
    ViewResult × RepoState × Nat :=
  match lookupAssoc st.skillMap name with
  | none => (.errSkillNotFound name, st, 0)
  | some skill =>
    match validateSkillPath targetPath with
    | .invalid reason => (.errInvalidPath targetPath reason, st, 0)
    | .valid =>
      if skill.availableFiles.contains targetPath then
        let cacheKey := name ++ "/" ++ targetPath
        match lookupAssoc st.skillContentCache cacheKey with
        | some cached =>
          if cached = "" then viewReadStorage fs st skill name targetPath cacheKey
          else (.ok cached, st, 0)
        | none => viewReadStorage fs st skill name targetPath cacheKey
      else (.errFileNotFound targetPath name, st, 0)

/-! ## Helper lemmas: path validator -/

theorem invalid_ne_valid (r : String) : PathCheck.invalid r ≠ PathCheck.valid := by
  simp

/-- A raw path starting with `/` or containing `:` is rejected with the
absolute-path reason. -/
theorem validateSkillPath_rejects_abs (p : String)
    (h : (p.toList.head? == some '/' || p.toList.contains ':') = true) :
    validateSkillPath p = .invalid "Absolute paths not allowed" := by
  simp only [validateSkillPath]
  rw [if_pos h]

/-- A path whose normalized form contains the substring `..` is never
accepted. -/
theorem validateSkillPath_rejects_dotdot (p : String)
    (h : containsDotDot (posixNormalize p).toList = true) :
    validateSkillPath p ≠ .valid := by
  simp only [validateSkillPath]
  by_cases hc : (p.toList.head? == some '/' || p.toList.contains ':') = true
  · rw [if_pos hc]; simp
  · rw [if_neg hc, if_pos h]; simp

/-! ## Claim C1 -/

/-- C1: the path validator rejects `../../etc/passwd`, `/etc/passwd` and
`scripts/../../../x`, accepts `SKILL.md`, `scripts/a.sql`, `references/b.md`
and `assets/c.png`, rejects the three-segment `scripts/sub/d.sql`; and no
input that starts with `/` or contains `:`, and no input whose normalized
form contains `..`, is ever accepted. -/
theorem C1_validator_examples_and_rejections :
    validateSkillPath "../../etc/passwd" = .invalid "Path traversal not allowed" ∧
    validateSkillPath "/etc/passwd" = .invalid "Absolute paths not allowed" ∧
    validateSkillPath "scripts/../../../x" = .invalid "Path traversal not allowed" ∧
    validateSkillPath "SKILL.md" = .valid ∧
    validateSkillPath "scripts/a.sql" = .valid ∧
    validateSkillPath "references/b.md" = .valid ∧
    validateSkillPath "assets/c.png" = .valid ∧
    validateSkillPath "scripts/sub/d.sql" = .invalid invalidShapeMsg ∧
    (∀ p : String, p.toList.head? = some '/' ∨ ':' ∈ p.toList →
      validateSkillPath p ≠ .valid) ∧
    (∀ p : String, containsDotDot (posixNormalize p).toList = true →
      validateSkillPath p ≠ .valid) := by
  refine ⟨by decide, by decide, by decide, by decide, by decide, by decide, by decide,
    by decide, ?_, ?_⟩
  · intro p h
    have hc : (p.toList.head? == some '/' || p.toList.contains ':') = true := by
      rcases h with h | h
      · rw [h]; simp
      · simp only [Bool.or_eq_true]
        exact Or.inr (List.elem_eq_true_of_mem h)
    rw [validateSkillPath_rejects_abs p hc]
    simp
  · exact validateSkillPath_rejects_dotdot

/-- Witness for C1: the universally quantified rejection clauses applied at
the concrete inputs `"x:y"` and `"a/../../b"`. -/
theorem C1_validator_witness :
    validateSkillPath "x:y" ≠ .valid ∧ validateSkillPath "a/../../b" ≠ .valid :=
  ⟨C1_validator_examples_and_rejections.2.2.2.2.2.2.2.2.1 "x:y" (Or.inr (by decide)),
   C1_validator_examples_and_rejections.2.2.2.2.2.2.2.2.2 "a/../../b" (by decide)⟩

/-! ## Claim C2

The claim describes the acceptance rule with "no parent-directory segment
(`..` as a whole path segment)". The source instead tests
`normalized.includes('..')`, a substring test: `"scripts/a..b"` has two
segments, a whitelisted first segment, and no `..` segment, yet is rejected.
-/

/-- C2 as stated is false: `"scripts/a..b"` does not start with `/`, does not
contain `:`, normalizes to two segments with whitelisted first segment
`scripts`, and contains no `..` path segment, but the validator rejects it
(the source tests `..` as a substring, not as a segment). -/
theorem C2_counterexample :
    ("scripts/a..b".toList.head? == some '/') = false ∧
    "scripts/a..b".toList.contains ':' = false ∧
    splitOnChar '/' (posixNormalize "scripts/a..b").toList =
      ["scripts".toList, "a..b".toList] ∧
    ALLOWED_SKILL_SUBDIRS.contains "scripts" = true ∧
    (splitOnChar '/' (posixNormalize "scripts/a..b").toList).contains ['.', '.'] = false ∧
    validateSkillPath "scripts/a..b" = .invalid "Path traversal not allowed" := by
  decide

/-- C2 amended: for every requested path that does not start with `/`, does
not contain `:`, whose normalized form has exactly two segments with a
whitelisted first segment, and whose normalized form does not contain the
substring `..` (rather than: no `..` segment), the validator returns Ok. -/
theorem C2_two_segment_whitelisted_accepted (p : String) (s t : List Char)
    (habs : (p.toList.head? == some '/' || p.toList.contains ':') = false)
    (hsegs : splitOnChar '/' (posixNormalize p).toList = [s, t])
    (hwl : ALLOWED_SKILL_SUBDIRS.contains (String.mk s) = true)
    (hdd : containsDotDot (posixNormalize p).toList = false) :
    validateSkillPath p = .valid := by
  simp only [validateSkillPath]
  rw [if_neg (ne_true_of_eq_false habs), if_neg (ne_true_of_eq_false hdd)]
  have hmain : posixNormalize p ≠ SKILL_MAIN_FILE := by
    intro heq
    rw [heq] at hsegs
    have : splitOnChar '/' (SKILL_MAIN_FILE : String).toList =
        ["SKILL.md".toList] := by decide
    rw [this] at hsegs
    simp at hsegs
  rw [if_neg hmain, hsegs]
  simp only [hwl, if_true]

/-- Witness for C2 (amended): the acceptance rule applied at
`"scripts/a.sql"`. -/
theorem C2_accepted_witness : validateSkillPath "scripts/a.sql" = .valid :=
  C2_two_segment_whitelisted_accepted "scripts/a.sql" "scripts".toList "a.sql".toList
    (by decide) (by decide) (by decide) (by decide)

/-! ## Helper lemmas: association-list maps -/

theorem lookupAssoc_updateAssoc_self {α : Type} (l : List (String × α)) (k : String)
    (v : α) (hany : l.any (fun p => p.1 == k) = true) :
    lookupAssoc (updateAssoc k v l) k = some v := by
  induction l with
  | nil => simp at hany
  | cons p l ih =>
    obtain ⟨pk, pv⟩ := p
    by_cases hp : (pk == k) = true
    · simp only [updateAssoc]
      rw [if_pos hp]
      simp only [lookupAssoc]
      rw [if_pos (beq_self_eq_true k)]
    · have hl : l.any (fun p => p.1 == k) = true := by
        simp only [List.any_cons, Bool.eq_false_iff.mpr hp, Bool.false_or] at hany
        exact hany
      have hkp : (k == pk) = false := by
        apply beq_eq_false_iff_ne.mpr
        intro he
        exact absurd (beq_iff_eq.mpr he.symm) hp
      simp only [updateAssoc]
      rw [if_neg hp]
      simp only [lookupAssoc]
      rw [if_neg (by rw [hkp]; simp)]
      exact ih hl

theorem lookupAssoc_updateAssoc_ne {α : Type} (l : List (String × α)) (k q : String)
    (v : α) (h : q ≠ k) :
    lookupAssoc (updateAssoc k v l) q = lookupAssoc l q := by
  induction l with
  | nil => rfl
  | cons p l ih =>
    obtain ⟨pk, pv⟩ := p
    by_cases hp : (pk == k) = true
    · have hqk : (q == k) = false := beq_eq_false_iff_ne.mpr h
      have hqp : (q == pk) = false := by rw [beq_iff_eq.mp hp]; exact hqk
      simp only [updateAssoc]
      rw [if_pos hp]
      simp only [lookupAssoc]
      rw [if_neg (by rw [hqk]; simp), if_neg (by rw [hqp]; simp)]
      exact ih
    · simp only [updateAssoc]
      rw [if_neg hp]
      simp only [lookupAssoc]
      by_cases hqp : (q == pk) = true
      · rw [if_pos hqp, if_pos hqp]
      · rw [if_neg hqp, if_neg hqp]
        exact ih

/-- Lookup distributes over append, preferring the left list. -/
theorem lookupAssoc_append {α : Type} (l m : List (String × α)) (q : String) :
    lookupAssoc (l ++ m) q =
      match lookupAssoc l q with
      | some v => some v
      | none => lookupAssoc m q := by
  induction l with
  | nil => rfl
  | cons p l ih =>
    obtain ⟨pk, pv⟩ := p
    simp only [List.cons_append, lookupAssoc]
    by_cases hqp : (q == pk) = true
    · rw [if_pos hqp, if_pos hqp]
    · rw [if_neg hqp, if_neg hqp]
      exact ih

/-- Keys absent from an association list look up to `none`. -/
theorem lookupAssoc_eq_none_of_not_any {α : Type} (l : List (String × α)) (q : String)
    (h : l.any (fun p => p.1 == q) = false) :
    lookupAssoc l q = none := by
  induction l with
  | nil => rfl
  | cons p l ih =>
    obtain ⟨pk, pv⟩ := p
    simp only [List.any_cons, Bool.or_eq_false_iff] at h
    have hqp : (q == pk) = false := by
      apply beq_eq_false_iff_ne.mpr
      intro he
      exact absurd (beq_iff_eq.mpr he.symm) (by rw [h.1]; simp)
    simp only [lookupAssoc]
    rw [if_neg (by rw [hqp]; simp)]
    exact ih h.2

theorem lookupAssoc_setAssoc_self {α : Type} (l : List (String × α)) (k : String)
    (v : α) : lookupAssoc (setAssoc l k v) k = some v := by
  unfold setAssoc
  by_cases hany : l.any (fun p => p.1 == k) = true
  · rw [if_pos hany]
    exact lookupAssoc_updateAssoc_self l k v hany
  · rw [if_neg hany]
    rw [lookupAssoc_append]
    rw [lookupAssoc_eq_none_of_not_any l k (Bool.eq_false_iff.mpr hany)]
    simp only [lookupAssoc]
    rw [if_pos (beq_self_eq_true k)]

theorem lookupAssoc_setAssoc_ne {α : Type} (l : List (String × α)) (k q : String)
    (v : α) (h : q ≠ k) :
    lookupAssoc (setAssoc l k v) q = lookupAssoc l q := by
  unfold setAssoc
  by_cases hany : l.any (fun p => p.1 == k) = true
  · rw [if_pos hany]
    exact lookupAssoc_updateAssoc_ne l k q v h
  · rw [if_neg hany]
    rw [lookupAssoc_append]
    cases hl : lookupAssoc l q with
    | some v2 => rfl
    | none =>
      simp only [lookupAssoc]
      rw [if_neg (by rw [beq_eq_false_iff_ne.mpr h]; simp)]

/-! ## Claim C6 -/

/-- C6: `viewSkillContent` fails with skill-not-found when the name is not in
the registry; otherwise with invalid-path (carrying the validator reason)
when the validator rejects; otherwise with file-not-found when the path is
not among the skill's `availableFiles`; in each case before any storage
access (zero reads) and without touching the state. -/
theorem C6_view_error_order (fs : FS) (st : RepoState) (name path : String) :
    (lookupAssoc st.skillMap name = none →
      viewSkillContent fs st name path = (.errSkillNotFound name, st, 0)) ∧
    (∀ sk reason, lookupAssoc st.skillMap name = some sk →
      validateSkillPath path = .invalid reason →
      viewSkillContent fs st name path = (.errInvalidPath path reason, st, 0)) ∧
    (∀ sk, lookupAssoc st.skillMap name = some sk →
      validateSkillPath path = .valid →
      sk.availableFiles.contains path = false →
      viewSkillContent fs st name path = (.errFileNotFound path name, st, 0)) := by
  refine ⟨?_, ?_, ?_⟩
  · intro h
    simp only [viewSkillContent, h]
  · intro sk reason h hv
    simp only [viewSkillContent, h, hv]
  · intro sk h hv hc
    simp only [viewSkillContent, h, hv]
    rw [if_neg (ne_true_of_eq_false hc)]

def demoSkill : Skill :=
  { path := "skills/demo", name := "demo", description := "d", metadata := none,
    availableFiles := [SKILL_MAIN_FILE] }

def demoState : RepoState :=
  { skillMap := [("demo", demoSkill)], skillContentCache := [] }

def emptyFs : FS := { files := [], dirs := [] }

/-- Witness for C6: the three failure modes at concrete inputs, in a registry
holding only the skill `demo`. -/
theorem C6_view_error_order_witness :
    viewSkillContent emptyFs demoState "nope" "SKILL.md" =
      (.errSkillNotFound "nope", demoState, 0) ∧
    viewSkillContent emptyFs demoState "demo" "/etc/passwd" =
      (.errInvalidPath "/etc/passwd" "Absolute paths not allowed", demoState, 0) ∧
    viewSkillContent emptyFs demoState "demo" "scripts/x.sql" =
      (.errFileNotFound "scripts/x.sql" "demo", demoState, 0) :=
  ⟨(C6_view_error_order emptyFs demoState "nope" "SKILL.md").1 (by decide),
   (C6_view_error_order emptyFs demoState "demo" "/etc/passwd").2.1 demoSkill
     "Absolute paths not allowed" (by decide) (by decide),
   (C6_view_error_order emptyFs demoState "demo" "scripts/x.sql").2.2 demoSkill
     (by decide) (by decide) (by decide)⟩

/-! ## Claim C3

The claim states that after one successful read a second identical read is
served from the cache with no storage access. The source guards the cache
hit with JavaScript truthiness (`if (cached)`), so a cached empty string is
never served: a declared file whose content is empty is re-read from storage
on every call.
-/

def emptyFileFs : FS :=
  { files := [("skills/cex/scripts/empty.sql", "")], dirs := [] }

def cexSkill : Skill :=
  { path := "skills/cex", name := "cex", description := "", metadata := none,
    availableFiles := [SKILL_MAIN_FILE, "scripts/empty.sql"] }

def cexState : RepoState :=
  { skillMap := [("cex", cexSkill)], skillContentCache := [] }

/-- C3 as stated is false: for the registered skill `cex` and its declared
file `scripts/empty.sql` (whose stored content is the empty string), the
first read succeeds, and the second read returns identical content but
performs one storage read instead of zero (the cached empty string is falsy
and is not served). -/
theorem C3_counterexample :
    cexSkill.availableFiles.contains "scripts/empty.sql" = true ∧
    (viewSkillContent emptyFileFs cexState "cex" "scripts/empty.sql").1 = .ok "" ∧
    (viewSkillContent emptyFileFs cexState "cex" "scripts/empty.sql").2.2 = 1 ∧
    (viewSkillContent emptyFileFs
        (viewSkillContent emptyFileFs cexState "cex" "scripts/empty.sql").2.1
        "cex" "scripts/empty.sql").1 = .ok "" ∧
    (viewSkillContent emptyFileFs
        (viewSkillContent emptyFileFs cexState "cex" "scripts/empty.sql").2.1
        "cex" "scripts/empty.sql").2.2 = 1 := by
  decide

/-- C3 amended: after one successful read of a (skill, path) pair, a second
read with the same arguments returns identical content; it performs no
storage access when that content is non-empty, and one storage re-read when
the content is the empty string. -/
theorem C3_second_read_cached (fs : FS) (st : RepoState) (name path c : String)
    (st1 : RepoState) (r1 : Nat)
    (h : viewSkillContent fs st name path = (.ok c, st1, r1)) :
    (viewSkillContent fs st1 name path).1 = .ok c ∧
    (viewSkillContent fs st1 name path).2.2 = (if c = "" then 1 else 0) := by
  cases hm : lookupAssoc st.skillMap name with
  | none =>
    simp only [viewSkillContent, hm] at h
    simp at h
  | some sk =>
  cases hv : validateSkillPath path with
  | invalid reason =>
    simp only [viewSkillContent, hm, hv] at h
    simp at h
  | valid =>
  cases hc : sk.availableFiles.contains path with
  | false =>
    simp only [viewSkillContent, hm, hv] at h
    rw [if_neg (ne_true_of_eq_false hc)] at h
    simp at h
  | true =>
  simp only [viewSkillContent, hm, hv] at h
  rw [if_pos hc] at h
  cases hcc : lookupAssoc st.skillContentCache (name ++ "/" ++ path) with
  | some cached =>
    simp only [hcc] at h
    by_cases hce : cached = ""
    · -- falsy cached value: the first read went to storage
      rw [if_pos hce] at h
      cases hf : fsReadFile fs (pathJoin sk.path path) with
      | none =>
        simp only [viewReadStorage, hf] at h
        simp at h
      | some content =>
        simp only [viewReadStorage, hf] at h
        simp only [Prod.mk.injEq, ViewResult.ok.injEq] at h
        obtain ⟨h1, h2, h3⟩ := h
        have hm1 : lookupAssoc st1.skillMap name = some sk := by
          rw [← h2]; exact hm
        have hcc1 : lookupAssoc st1.skillContentCache (name ++ "/" ++ path) = some c := by
          rw [← h2, ← h1]
          exact lookupAssoc_setAssoc_self _ _ _
        simp only [viewSkillContent, hm1, hv]
        rw [if_pos hc]
        simp only [hcc1]
        by_cases hne : c = ""
        · rw [if_pos hne]
          simp only [viewReadStorage, hf]
          exact ⟨by rw [h1], by rw [if_pos hne]⟩
        · rw [if_neg hne]
          exact ⟨rfl, by rw [if_neg hne]⟩
    · -- truthy cached value: the first read was itself a cache hit
      rw [if_neg hce] at h
      simp only [Prod.mk.injEq, ViewResult.ok.injEq] at h
      obtain ⟨h1, h2, h3⟩ := h
      have hm1 : lookupAssoc st1.skillMap name = some sk := by
        rw [← h2]; exact hm
      have hcc1 : lookupAssoc st1.skillContentCache (name ++ "/" ++ path) = some c := by
        rw [← h2, ← h1]
        exact hcc
      have hcne2 : ¬(c = "") := by rw [← h1]; exact hce
      simp only [viewSkillContent, hm1, hv]
      rw [if_pos hc]
      simp only [hcc1]
      rw [if_neg hcne2]
      exact ⟨rfl, by rw [if_neg hcne2]⟩
  | none =>
    simp only [hcc] at h
    cases hf : fsReadFile fs (pathJoin sk.path path) with
    | none =>
      simp only [viewReadStorage, hf] at h
      simp at h
    | some content =>
      simp only [viewReadStorage, hf] at h
      simp only [Prod.mk.injEq, ViewResult.ok.injEq] at h
      obtain ⟨h1, h2, h3⟩ := h
      have hm1 : lookupAssoc st1.skillMap name = some sk := by
        rw [← h2]; exact hm
      have hcc1 : lookupAssoc st1.skillContentCache (name ++ "/" ++ path) = some c := by
        rw [← h2, ← h1]
        exact lookupAssoc_setAssoc_self _ _ _
      simp only [viewSkillContent, hm1, hv]
      rw [if_pos hc]
      simp only [hcc1]
      by_cases hne : c = ""
      · rw [if_pos hne]
        simp only [viewReadStorage, hf]
        exact ⟨by rw [h1], by rw [if_pos hne]⟩
      · rw [if_neg hne]
        exact ⟨rfl, by rw [if_neg hne]⟩

def plainFs : FS :=
  { files := [("skills/demo/SKILL.md", "hello")], dirs := [] }

/-- Witness for C3 (amended): a concrete first read of `demo/SKILL.md`
returning `"hello"`, whose second read is a cache hit with zero storage
reads. -/
theorem C3_second_read_cached_witness :
    (viewSkillContent plainFs
        (viewSkillContent plainFs demoState "demo" "SKILL.md").2.1
        "demo" "SKILL.md").1 = .ok "hello" ∧
    (viewSkillContent plainFs
        (viewSkillContent plainFs demoState "demo" "SKILL.md").2.1
        "demo" "SKILL.md").2.2 = (if "hello" = "" then 1 else 0) :=
  C3_second_read_cached plainFs demoState "demo" "SKILL.md" "hello"
    (viewSkillContent plainFs demoState "demo" "SKILL.md").2.1
    (viewSkillContent plainFs demoState "demo" "SKILL.md").2.2 (by decide)

/-! ## Claim C5 -/

/-- C5: a load never throws to its caller. If enumerating the skills root
fails, `doLoadSkills` completes with an empty snapshot (and an empty, cleared
content cache). If the pass itself rejects, the failing `loadSkills` call
resolves to an empty snapshot and clears the cached in-flight promise, so
that a subsequent call runs a fresh pass and receives its result. -/
theorem C5_load_never_fails :
    (∀ fs : FS, fsReaddir fs skillsDir = none →
      doLoadSkills fs = { skillMap := [], skillContentCache := [] }) ∧
    (∀ (cached : Option (List (String × Skill))) (force : Bool),
      cached = none ∨ force = true →
      loadSkillsResolve cached force (.error ()) = ([], none)) ∧
    (∀ (force : Bool) (m : List (String × Skill)),
      loadSkillsResolve none force (.ok m) = (m, some m)) := by
  refine ⟨?_, ?_, ?_⟩
  · intro fs h
    simp only [doLoadSkills, h]
  · intro cached force h
    rcases h with h | h
    · subst h
      cases force <;> rfl
    · subst h
      cases cached <;> rfl
  · intro force m
    cases force <;> rfl

/-- Witness for C5: the empty filesystem has no enumerable skills root; a
rejected pass with and without a previously cached promise; and a fresh load
after the cleared promise. -/
theorem C5_load_never_fails_witness :
    doLoadSkills emptyFs = { skillMap := [], skillContentCache := [] } ∧
    loadSkillsResolve none false (.error ()) = ([], none) ∧
    loadSkillsResolve (some [("demo", demoSkill)]) true (.error ()) = ([], none) ∧
    loadSkillsResolve none false (.ok [("demo", demoSkill)]) =
      ([("demo", demoSkill)], some [("demo", demoSkill)]) :=
  ⟨C5_load_never_fails.1 emptyFs (by decide),
   C5_load_never_fails.2.1 none false (Or.inl rfl),
   C5_load_never_fails.2.1 (some [("demo", demoSkill)]) true (Or.inr rfl),
   C5_load_never_fails.2.2 false [("demo", demoSkill)]⟩

/-! ## Claim C4 -/

/-- A directory whose manifest parses to an already-registered name leaves the
load state completely unchanged: no snapshot entry and no cache key. -/
theorem loadLocalPath_skips_duplicate (fs : FS) (st : RepoState) (path c : String)
    (sm : SkillMatter) (b : String)
    (hread : fsReadFile fs (pathJoin path SKILL_MAIN_FILE) = some c)
    (hparse : parseSkillFile c = .ok (sm, b))
    (hdup : (lookupAssoc st.skillMap sm.name).isSome = true) :
    loadLocalPath fs st path = st := by
  simp only [loadLocalPath, hread, hparse]
  rw [if_pos hdup]

/-- C4: when a load pass encounters two skill directories whose manifests
yield the same final name, exactly one skill is registered — the one from the
directory enumerated first; the duplicate is skipped, overrides nothing, and
contributes no snapshot entry and no content-cache key. -/
theorem C4_duplicate_name_first_wins (fs : FS) (e1 e2 : DirEnt) (c1 c2 : String)
    (sm1 sm2 : SkillMatter) (b1 b2 : String)
    (hdir : fsReaddir fs skillsDir = some [e1, e2])
    (hd1 : e1.isDirectory = true) (hd2 : e2.isDirectory = true)
    (hr1 : fsReadFile fs (pathJoin (pathJoin skillsDir e1.name) SKILL_MAIN_FILE) = some c1)
    (hr2 : fsReadFile fs (pathJoin (pathJoin skillsDir e2.name) SKILL_MAIN_FILE) = some c2)
    (hp1 : parseSkillFile c1 = .ok (sm1, b1))
    (hp2 : parseSkillFile c2 = .ok (sm2, b2))
    (hsame : sm2.name = sm1.name) :
    doLoadSkills fs =
      { skillMap := [(sm1.name,
          { path := pathJoin skillsDir e1.name, name := sm1.name,
            description := sm1.description, metadata := sm1.metadata,
            availableFiles := scanSkillDirectory fs (pathJoin skillsDir e1.name) })],
        skillContentCache := [(sm1.name ++ "/" ++ SKILL_MAIN_FILE, b1)] } := by
  simp only [doLoadSkills, hdir, List.foldl_cons, List.foldl_nil]
  rw [if_pos hd1, if_pos hd2]
  have hstep1 : loadLocalPath fs { skillMap := [], skillContentCache := [] }
      (pathJoin skillsDir e1.name) =
      { skillMap := [(sm1.name,
          { path := pathJoin skillsDir e1.name, name := sm1.name,
            description := sm1.description, metadata := sm1.metadata,
            availableFiles := scanSkillDirectory fs (pathJoin skillsDir e1.name) })],
        skillContentCache := [(sm1.name ++ "/" ++ SKILL_MAIN_FILE, b1)] } := by
    simp only [loadLocalPath, hr1, hp1]
    rw [if_neg (by simp [lookupAssoc])]
    simp [setAssoc]
  rw [hstep1]
  apply loadLocalPath_skips_duplicate fs _ _ c2 sm2 b2 hr2 hp2
  rw [hsame]
  simp [lookupAssoc]

def dupFs : FS :=
  { files := [("skills/d1/SKILL.md", "---\nname: dup\ndescription: one\n---\nfirst"),
              ("skills/d2/SKILL.md", "---\nname: dup\ndescription: two\n---\nsecond")],
    dirs := [("skills", [⟨"d1", false, true⟩, ⟨"d2", false, true⟩])] }

/-- Witness for C4: two concrete directories `d1` and `d2` both declaring the
name `dup`; only `d1`'s skill and cache entry survive. -/
theorem C4_duplicate_name_first_wins_witness :
    doLoadSkills dupFs =
      { skillMap := [("dup",
          { path := pathJoin skillsDir "d1", name := "dup",
            description := "one", metadata := none,
            availableFiles := scanSkillDirectory dupFs (pathJoin skillsDir "d1") })],
        skillContentCache := [("dup" ++ "/" ++ SKILL_MAIN_FILE, "first")] } :=
  C4_duplicate_name_first_wins dupFs ⟨"d1", false, true⟩ ⟨"d2", false, true⟩
    "---\nname: dup\ndescription: one\n---\nfirst"
    "---\nname: dup\ndescription: two\n---\nsecond"
    ⟨"dup", "one", none⟩ ⟨"dup", "two", none⟩ "first" "second"
    (by decide) (by decide) (by decide) (by decide) (by decide)
    (by decide) (by decide) (by decide)

/-! ## Helper lemmas: character classes and the normalization pipeline -/

theorem toNat_ofNat_of_lt (n : Nat) (h : n < 55296) : (Char.ofNat n).toNat = n := by
  unfold Char.ofNat
  rw [dif_pos (Or.inl h)]
  rfl

theorem jsToLower_lowerAlnum (c : Char) (h : isAsciiAlnum c = true) :
    isLowerAlnum (jsToLower c) = true := by
  simp only [isAsciiAlnum, decide_eq_true_eq] at h
  unfold jsToLower
  by_cases hu : 65 ≤ c.toNat ∧ c.toNat ≤ 90
  · rw [if_pos hu]
    simp only [isLowerAlnum, decide_eq_true_eq]
    rw [toNat_ofNat_of_lt _ (by omega)]
    omega
  · rw [if_neg hu]
    simp only [isLowerAlnum, decide_eq_true_eq]
    omega

theorem lowerAlnum_not_space (c : Char) (h : isLowerAlnum c = true) :
    isJsSpace c = false := by
  simp only [isLowerAlnum, decide_eq_true_eq] at h
  simp only [isJsSpace, decide_eq_false_iff_not]
  omega

theorem lowerAlnum_lowerAllowed (c : Char) (h : isLowerAlnum c = true) :
    isLowerAllowed c = true := by
  simp only [isLowerAlnum, decide_eq_true_eq] at h
  simp only [isLowerAllowed, decide_eq_true_eq]
  omega

theorem lowerAlnum_not_du (c : Char) (h : isLowerAlnum c = true) :
    isDU c = false := by
  simp only [isLowerAlnum, decide_eq_true_eq] at h
  simp only [isDU, decide_eq_false_iff_not]
  omega

theorem lowerAllowed_nameAllowed (c : Char) (h : isLowerAllowed c = true) :
    isNameAllowedChar c = true := by
  simp only [isLowerAllowed, decide_eq_true_eq] at h
  simp only [isNameAllowedChar, decide_eq_true_eq]
  omega

/-- Non-whitespace characters survive whitespace-run collapsing. -/
theorem mem_collapseWsRuns (c : Char) (hc : isJsSpace c = false) :
    ∀ l : List Char, c ∈ l → c ∈ collapseWsRuns l := by
  intro l
  induction l with
  | nil => intro h; cases h
  | cons d rest ih =>
    intro h
    rcases List.mem_cons.mp h with h | h
    · subst h
      simp only [collapseWsRuns]
      rw [if_neg (by rw [hc]; simp)]
      exact List.mem_cons_self _ _
    · simp only [collapseWsRuns]
      by_cases hd : isJsSpace d = true
      · rw [if_pos hd]
        by_cases he : wsLookahead rest = true
        · rw [if_pos he]
          exact ih h
        · rw [if_neg he]
          exact List.mem_cons_of_mem _ (ih h)
      · rw [if_neg hd]
        exact List.mem_cons_of_mem _ (ih h)

/-- Characters in the allowed class survive the disallowed-replace step. -/
theorem mem_replaceDisallowed (c : Char) (hc : isLowerAllowed c = true)
    (l : List Char) (h : c ∈ l) : c ∈ replaceDisallowed l := by
  unfold replaceDisallowed
  exact List.mem_map.mpr ⟨c, h, by rw [if_pos hc]⟩

/-- Every character produced by the disallowed-replace step is in the allowed
class. -/
theorem all_lowerAllowed_replaceDisallowed (l : List Char) :
    ∀ c ∈ replaceDisallowed l, isLowerAllowed c = true := by
  intro c hc
  rcases List.mem_map.mp hc with ⟨d, _, hd⟩
  by_cases h : isLowerAllowed d = true
  · rw [if_pos h] at hd
    rw [← hd]
    exact h
  · rw [if_neg h] at hd
    rw [← hd]
    decide

/-- Run collapsing only ever emits characters of its input. -/
theorem mem_of_mem_collapseGo (lead : Char) :
    ∀ (l : List Char) (mode : Bool) (c : Char), c ∈ collapseGo lead mode l → c ∈ l := by
  intro l
  induction l with
  | nil =>
    intro mode c h
    cases mode <;> simp only [collapseGo] at h <;> cases h
  | cons d rest ih =>
    intro mode c h
    cases mode with
    | true =>
      simp only [collapseGo] at h
      by_cases hd : isDU d = true
      · rw [if_pos hd] at h
        exact List.mem_cons_of_mem _ (ih true c h)
      · rw [if_neg hd] at h
        rcases List.mem_cons.mp h with h | h
        · exact h ▸ List.mem_cons_self _ _
        · exact List.mem_cons_of_mem _ (ih false c h)
    | false =>
      simp only [collapseGo] at h
      by_cases hd : d = lead ∧ duLookahead rest = true
      · rw [if_pos hd] at h
        rcases List.mem_cons.mp h with h | h
        · exact h ▸ List.mem_cons_self _ _
        · exact List.mem_cons_of_mem _ (ih true c h)
      · rw [if_neg hd] at h
        rcases List.mem_cons.mp h with h | h
        · exact h ▸ List.mem_cons_self _ _
        · exact List.mem_cons_of_mem _ (ih false c h)

/-- Dash/underscore-free characters survive run collapsing. -/
theorem mem_collapseGo_of_mem (lead : Char) :
    ∀ (l : List Char) (mode : Bool) (c : Char), isDU c = false → c ∈ l →
      c ∈ collapseGo lead mode l := by
  intro l
  induction l with
  | nil => intro mode c hc h; cases h
  | cons d rest ih =>
    intro mode c hc h
    cases mode with
    | true =>
      simp only [collapseGo]
      by_cases hd : isDU d = true
      · rw [if_pos hd]
        rcases List.mem_cons.mp h with h | h
        · subst h
          rw [hc] at hd
          cases hd
        · exact ih true c hc h
      · rw [if_neg hd]
        rcases List.mem_cons.mp h with h | h
        · exact h ▸ List.mem_cons_self _ _
        · exact List.mem_cons_of_mem _ (ih false c hc h)
    | false =>
      simp only [collapseGo]
      by_cases hd : d = lead ∧ duLookahead rest = true
      · rw [if_pos hd]
        rcases List.mem_cons.mp h with h | h
        · exact h ▸ List.mem_cons_self _ _
        · exact List.mem_cons_of_mem _ (ih true c hc h)
      · rw [if_neg hd]
        rcases List.mem_cons.mp h with h | h
        · exact h ▸ List.mem_cons_self _ _
        · exact List.mem_cons_of_mem _ (ih false c hc h)

theorem mem_dropWhile_of_mem (p : Char → Bool) (c : Char) (hc : p c = false) :
    ∀ l : List Char, c ∈ l → c ∈ l.dropWhile p := by
  intro l h
  induction l with
  | nil => cases h
  | cons d rest ih =>
    rw [List.dropWhile_cons]
    by_cases hd : p d = true
    · rw [if_pos hd]
      rcases List.mem_cons.mp h with h | h
      · subst h
        rw [hc] at hd
        cases hd
      · exact ih h
    · rw [if_neg hd]
      exact h

theorem mem_of_mem_dropWhile (p : Char → Bool) (c : Char) (l : List Char)
    (h : c ∈ l.dropWhile p) : c ∈ l :=
  (List.dropWhile_sublist p).mem h

/-- Dash/underscore-free characters survive end trimming, and trimming only
emits input characters. -/
theorem mem_trimDashUnd (c : Char) (hc : isDU c = false) (l : List Char)
    (h : c ∈ l) : c ∈ trimDashUnd l := by
  unfold trimDashUnd
  rw [List.mem_reverse]
  apply mem_dropWhile_of_mem _ _ hc
  rw [List.mem_reverse]
  exact mem_dropWhile_of_mem _ _ hc _ h

theorem mem_of_mem_trimDashUnd (c : Char) (l : List Char)
    (h : c ∈ trimDashUnd l) : c ∈ l := by
  unfold trimDashUnd at h
  rw [List.mem_reverse] at h
  have h2 := mem_of_mem_dropWhile _ _ _ h
  rw [List.mem_reverse] at h2
  exact mem_of_mem_dropWhile _ _ _ h2

theorem string_mk_eq_empty_iff (l : List Char) : String.mk l = "" ↔ l = [] := by
  constructor
  · intro h
    exact String.ext_iff.mp h
  · intro h
    rw [h]

/-- Every character of a normalized name lies in `[a-z0-9-_]`. -/
theorem normalizeName_chars (name : String) :
    ∀ c ∈ (normalizeName name).toList, isLowerAllowed c = true := by
  intro c hc
  have hc3 := mem_of_mem_trimDashUnd c _ hc
  have hc4 := mem_of_mem_collapseGo '_' _ _ _ hc3
  have hc5 := mem_of_mem_collapseGo '-' _ _ _ hc4
  exact all_lowerAllowed_replaceDisallowed _ c hc5

/-- An input containing at least one ASCII alphanumeric character normalizes
to a non-empty name. -/
theorem normalizeName_ne_empty (name : String)
    (h : ∃ c ∈ name.toList, isAsciiAlnum c = true) :
    normalizeName name ≠ "" := by
  obtain ⟨c, hmem, halnum⟩ := h
  have hd : isLowerAlnum (jsToLower c) = true := jsToLower_lowerAlnum c halnum
  have h1 : jsToLower c ∈ name.toList.map jsToLower := List.mem_map.mpr ⟨c, hmem, rfl⟩
  have h2 := mem_collapseWsRuns _ (lowerAlnum_not_space _ hd) _ h1
  have h3 := mem_replaceDisallowed _ (lowerAlnum_lowerAllowed _ hd) _ h2
  have h4 : jsToLower c ∈
      step4 (replaceDisallowed (collapseWsRuns (name.toList.map jsToLower))) :=
    mem_collapseGo_of_mem '-' _ false _ (lowerAlnum_not_du _ hd) h3
  have h5 : jsToLower c ∈
      step5 (step4 (replaceDisallowed (collapseWsRuns (name.toList.map jsToLower)))) :=
    mem_collapseGo_of_mem '_' _ false _ (lowerAlnum_not_du _ hd) h4
  have h6 := mem_trimDashUnd _ (lowerAlnum_not_du _ hd) _ h5
  unfold normalizeName
  intro hemp
  rw [string_mk_eq_empty_iff] at hemp
  rw [hemp] at h6
  cases h6

/-- A non-empty normalized name matches the registration pattern. -/
theorem normalizeName_matches_of_ne_empty (name : String)
    (h : normalizeName name ≠ "") :
    matchesNamePattern (normalizeName name) = true := by
  unfold matchesNamePattern
  rw [Bool.and_eq_true]
  constructor
  · rw [Bool.not_eq_true']
    rw [List.isEmpty_eq_false]
    intro hemp
    exact h ((string_mk_eq_empty_iff _).mpr hemp)
  · rw [List.all_eq_true]
    intro c hcm
    exact lowerAllowed_nameAllowed c (normalizeName_chars name c hcm)

/-! ## Claim C7

The claim asserts well-formedness of the normalized name for every non-empty
name failing the pattern. A name consisting only of disallowed characters
(e.g. `"!"`) normalizes to the empty string — the edge case the spec itself
flags as open. The amended claim adds the spec's own proviso that the input
retain at least one (alphanumeric) character.
-/

/-- C7 as stated is false: `"!"` is a non-empty name failing the pattern, yet
its registered normalized form is the empty string, which is not a non-empty
match of `[a-zA-Z0-9-_]+`. -/
theorem C7_counterexample :
    ("!" : String) ≠ "" ∧ matchesNamePattern "!" = false ∧
    registerSkillName "!" = "" := by
  decide

/-- C7 amended: for every manifest name that fails the pattern and contains
at least one ASCII alphanumeric character, the registered name is non-empty
and matches the allowed character set. -/
theorem C7_normalized_name_wellformed (name : String)
    (hfail : matchesNamePattern name = false)
    (halnum : ∃ c ∈ name.toList, isAsciiAlnum c = true) :
    registerSkillName name ≠ "" ∧
    matchesNamePattern (registerSkillName name) = true := by
  have hreg : registerSkillName name = normalizeName name := by
    unfold registerSkillName
    rw [if_neg (ne_true_of_eq_false hfail)]
  rw [hreg]
  have hnon := normalizeName_ne_empty name halnum
  exact ⟨hnon, normalizeName_matches_of_ne_empty name hnon⟩

/-- Witness for C7 (amended): the name `"my skill!"` fails the pattern,
contains alphanumerics, and registers as a non-empty well-formed name. -/
theorem C7_normalized_name_wellformed_witness :
    registerSkillName "my skill!" ≠ "" ∧
    matchesNamePattern (registerSkillName "my skill!") = true :=
  C7_normalized_name_wellformed "my skill!" (by decide)
    ⟨'m', by decide, by decide⟩

/-! ## Claim C9 -/

/-- C9: name registration (pattern test plus normalization) is a
deterministic pure function of the input name, and applying it to a name it
has already produced returns that name unchanged (idempotence). -/
theorem C9_name_registration_idempotent :
    (∀ n₁ n₂ : String, n₁ = n₂ → registerSkillName n₁ = registerSkillName n₂) ∧
    (∀ name : String,
      registerSkillName (registerSkillName name) = registerSkillName name) := by
  refine ⟨fun n₁ n₂ h => by rw [h], ?_⟩
  intro name
  by_cases h : matchesNamePattern name = true
  · have hr : registerSkillName name = name := by
      unfold registerSkillName
      rw [if_pos h]
    rw [hr]
    exact hr
  · have hreg : registerSkillName name = normalizeName name := by
      unfold registerSkillName
      rw [if_neg h]
    rw [hreg]
    by_cases hemp : normalizeName name = ""
    · rw [hemp]
      decide
    · unfold registerSkillName
      rw [if_pos (normalizeName_matches_of_ne_empty name hemp)]

/-- Witness for C9: determinism and idempotence at the concrete name
`"My Cool Skill!"`. -/
theorem C9_name_registration_idempotent_witness :
    registerSkillName "My Cool Skill!" = registerSkillName "My Cool Skill!" ∧
    registerSkillName (registerSkillName "My Cool Skill!") =
      registerSkillName "My Cool Skill!" :=
  ⟨C9_name_registration_idempotent.1 "My Cool Skill!" "My Cool Skill!" rfl,
   C9_name_registration_idempotent.2 "My Cool Skill!"⟩

/-! ## Helper lemmas: run collapsing (claim C8)

The two run-collapsing replaces act independently on each maximal
dash/underscore run; the lemmas below make the boundary behavior of the
scanner `collapseGo` precise.
-/

theorem collapseGo_nil (lead : Char) (mode : Bool) : collapseGo lead mode [] = [] := by
  cases mode <;> rfl

theorem collapseGo_true_cons (lead d : Char) (rest : List Char) :
    collapseGo lead true (d :: rest) =
      if isDU d = true then collapseGo lead true rest
      else d :: collapseGo lead false rest := rfl

theorem collapseGo_false_cons (lead d : Char) (rest : List Char) :
    collapseGo lead false (d :: rest) =
      if d = lead ∧ duLookahead rest = true then d :: collapseGo lead true rest
      else d :: collapseGo lead false rest := rfl

theorem du_eq_underscore (c : Char) (hdu : isDU c = true) (hne : c ≠ '-') : c = '_' := by
  simp only [isDU, decide_eq_true_eq] at hdu
  obtain ⟨⟨v, hv⟩, hvalid⟩ := c
  simp only [Char.toNat, UInt32.toNat] at hdu
  rcases hdu with h | h
  · subst h
    exact absurd rfl hne
  · subst h
    rfl

theorem ne_lead_of_not_du (lead c : Char) (hlead : isDU lead = true)
    (hc : isDU c = false) : c ≠ lead := by
  intro h
  rw [h, hlead] at hc
  cases hc

/-- A non-dash/underscore head passes through the scanner in normal mode. -/
theorem collapseGo_false_head (lead : Char) (hlead : isDU lead = true) (c : Char)
    (hc : isDU c = false) (x : List Char) :
    collapseGo lead false (c :: x) = c :: collapseGo lead false x := by
  rw [collapseGo_false_cons]
  rw [if_neg (fun hand => ne_lead_of_not_du lead c hlead hc hand.1)]

/-- The next-character test only depends on the first list when it is
non-empty. -/
theorem duLookahead_append (l x : List Char) (h : l ≠ []) :
    duLookahead (l ++ x) = duLookahead l := by
  cases l with
  | nil => exact absurd rfl h
  | cons c l2 => rfl

/-- The scanner distributes over an append boundary whose left side ends in a
non-dash/underscore character. -/
theorem collapseGo_append (lead : Char) (hlead : isDU lead = true) :
    ∀ (l : List Char) (c : Char), l.getLast? = some c → isDU c = false →
      ∀ (mode : Bool) (x : List Char),
        collapseGo lead mode (l ++ x) = collapseGo lead mode l ++ collapseGo lead false x := by
  intro l
  induction l with
  | nil => intro c hlast _ _ _; cases hlast
  | cons d l2 ih =>
    intro c hlast hc mode x
    cases l2 with
    | nil =>
      have hd : d = c := by
        simp only [List.getLast?_singleton, Option.some.injEq] at hlast
        exact hlast
      subst hd
      rw [List.cons_append, List.nil_append]
      cases mode with
      | true =>
        rw [collapseGo_true_cons, collapseGo_true_cons]
        rw [if_neg (by rw [hc]; simp), if_neg (by rw [hc]; simp)]
        rw [collapseGo_nil]
        rfl
      | false =>
        rw [collapseGo_false_cons, collapseGo_false_cons]
        rw [if_neg (fun hand => ne_lead_of_not_du lead d hlead hc hand.1),
          if_neg (fun hand => ne_lead_of_not_du lead d hlead hc hand.1)]
        rw [collapseGo_nil]
        rfl
    | cons e l3 =>
      have hlast2 : (e :: l3).getLast? = some c := by
        rw [List.getLast?_cons_cons] at hlast
        exact hlast
      rw [List.cons_append]
      cases mode with
      | true =>
        rw [collapseGo_true_cons, collapseGo_true_cons]
        by_cases hd : isDU d = true
        · rw [if_pos hd, if_pos hd]
          exact ih c hlast2 hc true x
        · rw [if_neg hd, if_neg hd]
          rw [ih c hlast2 hc false x]
          rfl
      | false =>
        rw [collapseGo_false_cons, collapseGo_false_cons]
        rw [duLookahead_append (e :: l3) x (by simp)]
        by_cases hd : d = lead ∧ duLookahead (e :: l3) = true
        · rw [if_pos hd, if_pos hd]
          rw [ih c hlast2 hc true x]
          rfl
        · rw [if_neg hd, if_neg hd]
          rw [ih c hlast2 hc false x]
          rfl

/-- Appending a single non-dash/underscore character to the input appends it
to the output. -/
theorem collapseGo_append_single (lead : Char) (hlead : isDU lead = true) :
    ∀ (l : List Char) (c : Char), isDU c = false → ∀ mode : Bool,
      collapseGo lead mode (l ++ [c]) = collapseGo lead mode l ++ [c] := by
  intro l
  induction l with
  | nil =>
    intro c hc mode
    rw [List.nil_append, collapseGo_nil, List.nil_append]
    cases mode with
    | true =>
      rw [collapseGo_true_cons]
      rw [if_neg (by rw [hc]; simp), collapseGo_nil]
    | false =>
      rw [collapseGo_false_cons]
      rw [if_neg (fun hand => ne_lead_of_not_du lead c hlead hc hand.1), collapseGo_nil]
  | cons d l2 ih =>
    intro c hc mode
    rw [List.cons_append]
    cases mode with
    | true =>
      rw [collapseGo_true_cons, collapseGo_true_cons]
      by_cases hd : isDU d = true
      · rw [if_pos hd, if_pos hd]
        exact ih c hc true
      · rw [if_neg hd, if_neg hd]
        rw [ih c hc false]
        rfl
    | false =>
      rw [collapseGo_false_cons, collapseGo_false_cons]
      cases l2 with
      | nil =>
        have hla : duLookahead ([] ++ [c]) = false := hc
        rw [hla]
        rw [if_neg (by simp), if_neg (by simp [duLookahead])]
        rw [List.nil_append, collapseGo_nil]
        rw [collapseGo_false_cons]
        rw [if_neg (fun hand => ne_lead_of_not_du lead c hlead hc hand.1), collapseGo_nil]
        rfl
      | cons e l3 =>
        rw [duLookahead_append (e :: l3) [c] (by simp)]
        by_cases hd : d = lead ∧ duLookahead (e :: l3) = true
        · rw [if_pos hd, if_pos hd]
          rw [ih c hc true]
          rfl
        · rw [if_neg hd, if_neg hd]
          rw [ih c hc false]
          rfl

/-- In skipping mode the scanner drops a dash/underscore-only prefix. -/
theorem collapseGo_true_skips (lead : Char) :
    ∀ (l : List Char), (∀ c ∈ l, isDU c = true) → ∀ x : List Char,
      collapseGo lead true (l ++ x) = collapseGo lead true x := by
  intro l
  induction l with
  | nil => intro _ x; rfl
  | cons d l2 ih =>
    intro h x
    rw [List.cons_append, collapseGo_true_cons]
    rw [if_pos (h d (List.mem_cons_self _ _))]
    exact ih (fun c hc => h c (List.mem_cons_of_mem _ hc)) x

/-- Skipping mode and normal mode agree on an empty input or one that starts
with a non-dash/underscore character. -/
theorem collapseGo_true_eq_false (lead : Char) (hlead : isDU lead = true)
    (x : List Char) (hx : x = [] ∨ duLookahead x = false) :
    collapseGo lead true x = collapseGo lead false x := by
  cases x with
  | nil => rfl
  | cons c x2 =>
    have hc : isDU c = false := by
      rcases hx with hx | hx
      · cases hx
      · exact hx
    rw [collapseGo_true_cons, collapseGo_false_cons]
    rw [if_neg (by rw [hc]; simp),
      if_neg (fun hand => ne_lead_of_not_du lead c hlead hc hand.1)]

/-- Characters different from the scanner's lead pass through in normal
mode. -/
theorem collapseGo_false_emits (lead : Char) :
    ∀ (l : List Char), (∀ c ∈ l, c ≠ lead) → ∀ x : List Char,
      collapseGo lead false (l ++ x) = l ++ collapseGo lead false x := by
  intro l
  induction l with
  | nil => intro _ x; rfl
  | cons d l2 ih =>
    intro h x
    rw [List.cons_append, collapseGo_false_cons]
    rw [if_neg (fun hand => h d (List.mem_cons_self _ _) hand.1)]
    rw [ih (fun c hc => h c (List.mem_cons_of_mem _ hc)) x]
    rfl

/-- A maximal run starting with the scanner's lead character collapses to the
single lead character. -/
theorem collapseGo_false_run (lead : Char) (hlead : isDU lead = true)
    (rs : List Char) (hrs : ∀ c ∈ rs, isDU c = true) (x : List Char)
    (hx : x = [] ∨ duLookahead x = false) :
    collapseGo lead false ((lead :: rs) ++ x) = lead :: collapseGo lead false x := by
  cases rs with
  | nil =>
    have hla : duLookahead x = false := by
      rcases hx with hx | hx
      · rw [hx]; rfl
      · exact hx
    rw [List.cons_append, List.nil_append, collapseGo_false_cons]
    rw [if_neg (fun hand => by rw [hla] at hand; cases hand.2)]
  | cons d rs2 =>
    have hla : duLookahead ((d :: rs2) ++ x) = true :=
      hrs d (List.mem_cons_self _ _)
    rw [List.cons_append, collapseGo_false_cons]
    rw [if_pos ⟨rfl, hla⟩]
    rw [collapseGo_true_skips lead (d :: rs2) (fun c hc => hrs c hc) x]
    rw [collapseGo_true_eq_false lead hlead x hx]

/-- First-occurrence decomposition of a list around a member. -/
theorem exists_first_occurrence (c : Char) :
    ∀ l : List Char, c ∈ l → ∃ us rs, l = us ++ c :: rs ∧ ∀ d ∈ us, d ≠ c := by
  intro l
  induction l with
  | nil => intro h; cases h
  | cons d l2 ih =>
    intro h
    by_cases hd : d = c
    · exact ⟨[], l2, by rw [hd, List.nil_append], by intro e he; cases he⟩
    · have h2 : c ∈ l2 := by
        rcases List.mem_cons.mp h with h | h
        · exact absurd h.symm hd
        · exact h
      obtain ⟨us, rs, heq, hus⟩ := ih h2
      refine ⟨d :: us, rs, by rw [heq]; rfl, ?_⟩
      intro e he
      rcases List.mem_cons.mp he with he | he
      · exact he ▸ hd
      · exact hus e he

theorem eq_append_getLast (c : Char) :
    ∀ l : List Char, l.getLast? = some c → ∃ l0, l = l0 ++ [c] := by
  intro l
  induction l with
  | nil => intro h; cases h
  | cons d l2 ih =>
    intro h
    cases l2 with
    | nil =>
      simp only [List.getLast?_singleton, Option.some.injEq] at h
      exact ⟨[], by rw [h, List.nil_append]⟩
    | cons e l3 =>
      rw [List.getLast?_cons_cons] at h
      obtain ⟨l0, hl0⟩ := ih h
      exact ⟨d :: l0, by rw [hl0]; rfl⟩

/-- A dash run-head under the underscore-led scanner passes through. -/
theorem step5_dash_cons (D : List Char) : step5 ('-' :: D) = '-' :: step5 D := by
  unfold step5
  rw [collapseGo_false_cons]
  rw [if_neg (fun hand => absurd hand.1 (by decide))]

/-! ## Claim C8

The claim says every mixed dash/underscore run collapses to a single `'-'`.
The dash-led replace runs first and only matches runs that start with a
dash; a mixed run starting with `'_'` (for example `"_-"`) is instead
collapsed to `'_'` by the underscore-led replace. A mixed run therefore
collapses to a single copy of its own first character.
-/

/-- C8 as stated is false: starting from the name `"a!-b"`, the first three
normalization passes produce `"a_-b"`, whose maximal mixed run `"_-"`
contains both characters; the two run-collapsing passes yield `"a_b"` — the
run collapses to `'_'`, not to `'-'`. -/
theorem C8_counterexample :
    replaceDisallowed (collapseWsRuns (("a!-b" : String).toList.map jsToLower)) =
      ("a_-b" : String).toList ∧
    step5 (step4 (("a" : String).toList ++ ("_-" : String).toList ++
        ("b" : String).toList)) ≠
      step5 (step4 ("a" : String).toList) ++ ['-'] ++
        step5 (step4 ("b" : String).toList) ∧
    step5 (step4 (("a" : String).toList ++ ("_-" : String).toList ++
        ("b" : String).toList)) =
      step5 (step4 ("a" : String).toList) ++ ['_'] ++
        step5 (step4 ("b" : String).toList) := by
  decide

/-- C8 amended: after lower-casing, whitespace-run replacement and
disallowed-character replacement, every maximal run of two or more
consecutive `'-'`/`'_'` characters containing both characters collapses,
under the two run-collapsing passes, to a single copy of the run's first
character (`'-'` for dash-led runs, `'_'` for underscore-led runs). -/
theorem C8_mixed_run_collapses (pre run suf : List Char) (rc : Char)
    (run2 : List Char) (hrun : run = rc :: run2)
    (hdu : ∀ c ∈ run, isDU c = true)
    (hdash : '-' ∈ run) (_hund : '_' ∈ run)
    (hpre : pre = [] ∨ ∃ c, pre.getLast? = some c ∧ isDU c = false)
    (hsuf : suf = [] ∨ duLookahead suf = false) :
    step5 (step4 (pre ++ run ++ suf)) =
      step5 (step4 pre) ++ [rc] ++ step5 (step4 suf) := by
  have hld4 : isDU '-' = true := by decide
  have hld5 : isDU '_' = true := by decide
  -- the tail of step4 keeps the boundary shape of suf
  have hD : step4 suf = [] ∨ duLookahead (step4 suf) = false := by
    rcases hsuf with hs | hs
    · left
      rw [hs]
      exact collapseGo_nil _ _
    · cases suf with
      | nil =>
        left
        exact collapseGo_nil _ _
      | cons c suf2 =>
        right
        have hc : isDU c = false := hs
        unfold step4
        rw [collapseGo_false_head '-' hld4 c hc suf2]
        exact hc
  -- split the run at its first dash
  obtain ⟨us, rs, hsplit, husne⟩ := exists_first_occurrence '-' run hdash
  have husd : ∀ c ∈ us, c = '_' := fun c hc =>
    du_eq_underscore c (hdu c (by rw [hsplit]; exact List.mem_append_left _ hc))
      (husne c hc)
  have hrsdu : ∀ c ∈ rs, isDU c = true := fun c hc =>
    hdu c (by rw [hsplit]; exact List.mem_append_right _ (List.mem_cons_of_mem _ hc))
  -- the dash-led pass collapses the run to us ++ ['-']
  have hC : collapseGo '-' false (run ++ suf) = us ++ '-' :: step4 suf := by
    rw [hsplit, List.append_assoc]
    rw [collapseGo_false_emits '-' us husne (('-' :: rs) ++ suf)]
    rw [collapseGo_false_run '-' hld4 rs hrsdu suf hsuf]
    rfl
  -- apply the boundary decomposition for the dash-led pass
  have hstep4 : step4 (pre ++ run ++ suf) = step4 pre ++ (us ++ '-' :: step4 suf) := by
    rcases hpre with hp | ⟨c, hlast, hc⟩
    · rw [hp, List.nil_append]
      unfold step4
      rw [hC]
      rw [show collapseGo '-' false ([] : List Char) = [] from rfl]
      rfl
    · unfold step4
      rw [List.append_assoc]
      rw [collapseGo_append '-' hld4 pre c hlast hc false (run ++ suf)]
      rw [hC]
      rfl
  -- the output of step4 on pre keeps its non-DU last character
  have hA : step4 pre = [] ∨ ∃ c, (step4 pre).getLast? = some c ∧ isDU c = false := by
    rcases hpre with hp | ⟨c, hlast, hc⟩
    · left
      rw [hp]
      exact collapseGo_nil _ _
    · right
      obtain ⟨pre0, hpre0⟩ := eq_append_getLast c pre hlast
      refine ⟨c, ?_, hc⟩
      unfold step4
      rw [hpre0, collapseGo_append_single '-' hld4 pre0 c hc false]
      exact List.getLast?_concat _
  -- evaluate the underscore-led pass on the collapsed middle
  have hMid : collapseGo '_' false (us ++ '-' :: step4 suf) =
      (if us = [] then ['-'] else ['_']) ++ step5 (step4 suf) := by
    cases us with
    | nil =>
      rw [if_pos rfl, List.nil_append]
      exact step5_dash_cons (step4 suf)
    | cons u us2 =>
      rw [if_neg (by simp)]
      have hu : u = '_' := husd u (List.mem_cons_self _ _)
      subst hu
      have hshape : ('_' :: us2) ++ '-' :: step4 suf =
          ('_' :: (us2 ++ ['-'])) ++ step4 suf := by
        simp [List.append_assoc]
      rw [hshape]
      rw [collapseGo_false_run '_' hld5 (us2 ++ ['-'])
        (by
          intro c hc
          rcases List.mem_append.mp hc with hc | hc
          · rw [husd c (List.mem_cons_of_mem _ hc)]
            decide
          · rw [List.mem_singleton.mp hc]
            decide)
        (step4 suf) hD]
      rfl
  -- identify the run's head character
  have hrc : rc = (if us = [] then '-' else '_') := by
    cases us with
    | nil =>
      rw [if_pos rfl]
      rw [hsplit, List.nil_append] at hrun
      exact (List.cons.injEq _ _ _ _ ▸ hrun :
        ('-' : Char) = rc ∧ rs = run2).1.symm
    | cons u us2 =>
      rw [if_neg (by simp)]
      have hu : u = '_' := husd u (List.mem_cons_self _ _)
      rw [hsplit, hu] at hrun
      exact (List.cons.injEq _ _ _ _ ▸ hrun :
        ('_' : Char) = rc ∧ us2 ++ '-' :: rs = run2).1.symm
  -- assemble
  rw [hstep4]
  rcases hA with hA | ⟨c, hlast, hc⟩
  · rw [hA, List.nil_append]
    unfold step5 at hMid ⊢
    rw [hMid]
    rw [show collapseGo '_' false ([] : List Char) = [] from rfl]
    rw [hrc]
    cases us with
    | nil => simp
    | cons u us2 => simp
  · unfold step5
    rw [collapseGo_append '_' hld5 (step4 pre) c hlast hc false
      (us ++ '-' :: step4 suf)]
    unfold step5 at hMid
    rw [hMid]
    rw [hrc]
    cases us with
    | nil => simp
    | cons u us2 => simp

/-- Witness for C8 (amended): with `pre = "a"`, mixed run `"_-"`,
`suf = "b"`, the run collapses to its first character `'_'`. -/
theorem C8_mixed_run_collapses_witness :
    step5 (step4 (("a" : String).toList ++ ("_-" : String).toList ++
        ("b" : String).toList)) =
      step5 (step4 ("a" : String).toList) ++ ['_'] ++
        step5 (step4 ("b" : String).toList) :=
  C8_mixed_run_collapses ("a" : String).toList ("_-" : String).toList
    ("b" : String).toList '_' ['-'] (by decide) (by decide) (by decide)
    (by decide) (Or.inr ⟨'a', by decide, by decide⟩) (Or.inr (by decide))

/-! ## Claim C10 -/

theorem string_append_right_cancel (a b s : String) (h : a ++ s = b ++ s) : a = b := by
  have hd : a.data ++ s.data = b.data ++ s.data := by
    have h2 := congrArg String.data h
    simpa [String.data_append] using h2
  exact String.ext (List.append_cancel_right hd)

/-- The directory scanner always lists the main file (it seeds the
accumulator, which only ever grows). -/
theorem scanSkillDirectory_foldl_mem (fs : FS) (skillPath x : String) :
    ∀ (subdirs : List String) (acc : List String), x ∈ acc →
      x ∈ subdirs.foldl (fun acc subdir =>
        match fsReaddir fs (pathJoin skillPath subdir) with
        | none => acc
        | some entries =>
          acc ++ (entries.filter (fun e => e.isFile)).map
            (fun e => subdir ++ "/" ++ e.name)) acc := by
  intro subdirs
  induction subdirs with
  | nil => intro acc h; exact h
  | cons d rest ih =>
    intro acc h
    rw [List.foldl_cons]
    cases hr : fsReaddir fs (pathJoin skillPath d) with
    | none =>
      simp only [hr]
      exact ih acc h
    | some entries =>
      simp only [hr]
      exact ih _ (List.mem_append_left _ h)

theorem mem_scanSkillDirectory (fs : FS) (skillPath : String) :
    SKILL_MAIN_FILE ∈ scanSkillDirectory fs skillPath := by
  unfold scanSkillDirectory
  exact scanSkillDirectory_foldl_mem fs skillPath SKILL_MAIN_FILE
    ALLOWED_SKILL_SUBDIRS [SKILL_MAIN_FILE] (List.mem_singleton.mpr rfl)

/-- The per-skill facts established by a load pass about every registered
skill: its record fields, the raw stored main file, its parse, and the seeded
content cache. -/
def LoadInv (fs : FS) (st : RepoState) : Prop :=
  ∀ n sk, lookupAssoc st.skillMap n = some sk →
    sk.name = n ∧ sk.availableFiles = scanSkillDirectory fs sk.path ∧
    ∃ raw sm body,
      fsReadFile fs (pathJoin sk.path SKILL_MAIN_FILE) = some raw ∧
      parseSkillFile raw = .ok (sm, body) ∧ sm.name = n ∧
      lookupAssoc st.skillContentCache (n ++ "/" ++ SKILL_MAIN_FILE) = some body

theorem loadInv_loadLocalPath (fs : FS) (st : RepoState) (path : String)
    (h : LoadInv fs st) : LoadInv fs (loadLocalPath fs st path) := by
  cases hr : fsReadFile fs (pathJoin path SKILL_MAIN_FILE) with
  | none =>
    simp only [loadLocalPath, hr]
    exact h
  | some fileContent =>
    cases hp : parseSkillFile fileContent with
    | error e =>
      simp only [loadLocalPath, hr, hp]
      exact h
    | ok pair =>
      obtain ⟨sm, content⟩ := pair
      simp only [loadLocalPath, hr, hp]
      by_cases hdup : (lookupAssoc st.skillMap sm.name).isSome = true
      · rw [if_pos hdup]
        exact h
      · rw [if_neg hdup]
        intro n sk hlook
        by_cases hn : n = sm.name
        · subst hn
          rw [lookupAssoc_setAssoc_self] at hlook
          have hsk : sk = { path := path, name := sm.name,
                            description := sm.description, metadata := sm.metadata,
                            availableFiles := scanSkillDirectory fs path } := by
            have h2 := Option.some.injEq _ _ ▸ hlook
            exact h2.symm
          subst hsk
          refine ⟨rfl, rfl, fileContent, sm, content, hr, hp, rfl, ?_⟩
          exact lookupAssoc_setAssoc_self _ _ _
        · rw [lookupAssoc_setAssoc_ne _ _ _ _ hn] at hlook
          obtain ⟨h1, h2, raw, sm2, body, h3, h4, h5, h6⟩ := h n sk hlook
          refine ⟨h1, h2, raw, sm2, body, h3, h4, h5, ?_⟩
          rw [lookupAssoc_setAssoc_ne]
          · exact h6
          · intro hkey
            have hkey2 := string_append_right_cancel _ _ _ hkey
            exact hn (string_append_right_cancel _ _ _ hkey2)

theorem loadInv_foldl (fs : FS) :
    ∀ (entries : List DirEnt) (st : RepoState), LoadInv fs st →
      LoadInv fs (entries.foldl (fun st e =>
        if e.isDirectory then loadLocalPath fs st (pathJoin skillsDir e.name) else st)
        st) := by
  intro entries
  induction entries with
  | nil => intro st h; exact h
  | cons e rest ih =>
    intro st h
    rw [List.foldl_cons]
    apply ih
    by_cases hd : e.isDirectory = true
    · rw [if_pos hd]
      exact loadInv_loadLocalPath fs st _ h
    · rw [if_neg hd]
      exact h

theorem loadInv_doLoadSkills (fs : FS) : LoadInv fs (doLoadSkills fs) := by
  unfold doLoadSkills
  cases hr : fsReaddir fs skillsDir with
  | none =>
    intro n sk hlook
    cases hlook
  | some entries =>
    apply loadInv_foldl
    intro n sk hlook
    cases hlook

/-- Reading the main file against a state satisfying the per-skill facts:
serve the seeded body on a cache hit, or fall through to storage (returning
the raw file text) when the seeded body is empty. -/
theorem view_main_from_facts (fs : FS) (st : RepoState) (n : String) (sk : Skill)
    (body raw : String)
    (hm : lookupAssoc st.skillMap n = some sk)
    (hav : sk.availableFiles = scanSkillDirectory fs sk.path)
    (hcache : lookupAssoc st.skillContentCache (n ++ "/" ++ SKILL_MAIN_FILE) = some body)
    (hraw : fsReadFile fs (pathJoin sk.path SKILL_MAIN_FILE) = some raw) :
    (body ≠ "" → viewSkillContent fs st n SKILL_MAIN_FILE = (.ok body, st, 0)) ∧
    (body = "" → viewSkillContent fs st n SKILL_MAIN_FILE =
      (.ok raw, { st with skillContentCache := setAssoc st.skillContentCache
                            (n ++ "/" ++ SKILL_MAIN_FILE) raw }, 1)) := by
  have hv : validateSkillPath SKILL_MAIN_FILE = .valid := by decide
  have hcontains : sk.availableFiles.contains SKILL_MAIN_FILE = true := by
    rw [hav]
    exact List.elem_eq_true_of_mem (mem_scanSkillDirectory fs sk.path)
  constructor
  · intro hne
    simp only [viewSkillContent, hm, hv]
    rw [if_pos hcontains]
    simp only [hcache]
    rw [if_neg hne]
  · intro hemp
    subst hemp
    simp only [viewSkillContent, hm, hv]
    rw [if_pos hcontains]
    simp only [hcache]
    simp only [if_true]
    simp only [viewReadStorage, hraw]

/-- C10: every skill registered by a load pass has its parsed, trimmed,
front-matter-stripped body seeded in the content cache under
`<name>/SKILL.md`; a subsequent read of the main file returns that body
rather than the raw on-disk text when the body is non-empty, and falls
through to storage — returning the raw file content including front matter —
when the trimmed body is the empty string. -/
theorem C10_main_file_body_seeded (fs : FS) (n : String) (sk : Skill)
    (h : lookupAssoc (doLoadSkills fs).skillMap n = some sk) :
    ∃ raw sm body,
      fsReadFile fs (pathJoin sk.path SKILL_MAIN_FILE) = some raw ∧
      parseSkillFile raw = .ok (sm, body) ∧ sm.name = n ∧
      lookupAssoc (doLoadSkills fs).skillContentCache
        (n ++ "/" ++ SKILL_MAIN_FILE) = some body ∧
      (body ≠ "" → viewSkillContent fs (doLoadSkills fs) n SKILL_MAIN_FILE =
        (.ok body, doLoadSkills fs, 0)) ∧
      (body = "" → viewSkillContent fs (doLoadSkills fs) n SKILL_MAIN_FILE =
        (.ok raw, { doLoadSkills fs with
                    skillContentCache := setAssoc (doLoadSkills fs).skillContentCache
                      (n ++ "/" ++ SKILL_MAIN_FILE) raw }, 1)) := by
  obtain ⟨h1, h2, raw, sm, body, h3, h4, h5, h6⟩ := loadInv_doLoadSkills fs n sk h
  obtain ⟨hview1, hview2⟩ := view_main_from_facts fs (doLoadSkills fs) n sk body raw
    h h2 h6 h3
  exact ⟨raw, sm, body, h3, h4, h5, h6, hview1, hview2⟩

def seedFs : FS :=
  { files := [("skills/alpha/SKILL.md",
      "---\nname: alpha\ndescription: da\n---\nbody text"),
    ("skills/blank/SKILL.md", "---\nname: blank\ndescription: db\n---\n")],
    dirs := [("skills", [⟨"alpha", false, true⟩, ⟨"blank", false, true⟩])] }

def seedSkillAlpha : Skill :=
  { path := "skills/alpha", name := "alpha", description := "da", metadata := none,
    availableFiles := ["SKILL.md"] }

def seedSkillBlank : Skill :=
  { path := "skills/blank", name := "blank", description := "db", metadata := none,
    availableFiles := ["SKILL.md"] }

/-- Witness for C10: the skill `alpha` (non-empty body, served from cache)
and the skill `blank` (front matter only, empty trimmed body, re-read raw
from storage) in a concrete two-skill filesystem. -/
theorem C10_main_file_body_seeded_witness :
    (∃ raw sm body,
      fsReadFile seedFs (pathJoin seedSkillAlpha.path SKILL_MAIN_FILE) = some raw ∧
      parseSkillFile raw = .ok (sm, body) ∧ sm.name = "alpha" ∧
      lookupAssoc (doLoadSkills seedFs).skillContentCache
        ("alpha" ++ "/" ++ SKILL_MAIN_FILE) = some body ∧
      (body ≠ "" → viewSkillContent seedFs (doLoadSkills seedFs) "alpha"
        SKILL_MAIN_FILE = (.ok body, doLoadSkills seedFs, 0)) ∧
      (body = "" → viewSkillContent seedFs (doLoadSkills seedFs) "alpha"
        SKILL_MAIN_FILE = (.ok raw, { doLoadSkills seedFs with
                                      skillContentCache :=
                                        setAssoc (doLoadSkills seedFs).skillContentCache
                                          ("alpha" ++ "/" ++ SKILL_MAIN_FILE) raw }, 1))) ∧
    (∃ raw sm body,
      fsReadFile seedFs (pathJoin seedSkillBlank.path SKILL_MAIN_FILE) = some raw ∧
      parseSkillFile raw = .ok (sm, body) ∧ sm.name = "blank" ∧
      lookupAssoc (doLoadSkills seedFs).skillContentCache
        ("blank" ++ "/" ++ SKILL_MAIN_FILE) = some body ∧
      (body ≠ "" → viewSkillContent seedFs (doLoadSkills seedFs) "blank"
        SKILL_MAIN_FILE = (.ok body, doLoadSkills seedFs, 0)) ∧
      (body = "" → viewSkillContent seedFs (doLoadSkills seedFs) "blank"
        SKILL_MAIN_FILE = (.ok raw, { doLoadSkills seedFs with
                                      skillContentCache :=
                                        setAssoc (doLoadSkills seedFs).skillContentCache
                                          ("blank" ++ "/" ++ SKILL_MAIN_FILE) raw }, 1))) :=
  ⟨C10_main_file_body_seeded seedFs "alpha" seedSkillAlpha (by decide),
   C10_main_file_body_seeded seedFs "blank" seedSkillBlank (by decide)⟩

end PgAiguide

